import Mathlib

/-!
Verification of the build-time helper scripts of `probe-station-esp32`:
`scripts/gzip_webfiles.py` (asset compressor with version injection) and
`scripts/pio_version.py` (version resolver with in-place HTML substitution).

The Python code is shallowly embedded: file contents are lists of byte
values (`List Nat`), Python strings are Lean `String`s, the SCons
environment's `BUILD_FLAGS` entries are `PyFlag` (a build flag may be a
non-string object, which the code filters out with `isinstance`), and the
process environment variable `FW_VERSION` is an `Option String`.

Python's `bytes.replace` / `str.replace` (replace every occurrence,
scanning left to right, non-overlapping) and the substring test
`needle in haystack` are modelled generically over lists below
(`listReplace`, `containsSeq`).
-/

section ReplaceLib

variable {α : Type} [DecidableEq α]

/-- Python's substring test `p in s`: does `p` occur as a contiguous
run inside `s`?  The empty pattern occurs in every string, as in Python. -/
def containsSeq (p : List α) : List α → Bool
  | [] => p.isEmpty
  | a :: s => p.isPrefixOf (a :: s) || containsSeq p s

/-- Worker for `listReplace`, structurally recursive on a fuel bound so
that it reduces definitionally.  One unit of fuel is spent per scan
position; a replacement consumes `p.length ≥ 1` characters, so fuel
`s.length` always suffices. -/
def replaceGo (p r : List α) : Nat → List α → List α
  | _, [] => []
  | 0, s => s
  | fuel + 1, a :: s =>
      if p.isPrefixOf (a :: s) then
        r ++ replaceGo p r fuel (s.drop (p.length - 1))
      else
        a :: replaceGo p r fuel s

/-- Python's `s.replace(p, r)`: replace every occurrence of `p` in `s` by
`r`, scanning left to right, non-overlapping.  For the empty pattern,
Python inserts `r` at every position (including both ends), which the
first branch reproduces; both call sites in the scripts use the fixed
non-empty pattern `__VERSION__`. -/
def listReplace (p r s : List α) : List α :=
  if p.isEmpty then r ++ s.foldr (fun a acc => a :: (r ++ acc)) []
  else replaceGo p r s.length s

theorem containsSeq_nil_pat (s : List α) : containsSeq ([] : List α) s = true := by
  cases s <;> simp [containsSeq, List.isPrefixOf]

theorem isPrefixOf_append_self (r x : List α) : r.isPrefixOf (r ++ x) = true := by
  induction r with
  | nil => simp [List.isPrefixOf]
  | cons c rt ih => simp [List.isPrefixOf, ih]

theorem containsSeq_self_append (r x : List α) : containsSeq r (r ++ x) = true := by
  cases r with
  | nil => exact containsSeq_nil_pat _
  | cons c rt => simp [containsSeq, isPrefixOf_append_self]

theorem containsSeq_append_of_disjoint {p r : List α} (hp : p ≠ [])
    (hdis : ∀ c ∈ r, c ∉ p) (x : List α) :
    containsSeq p (r ++ x) = containsSeq p x := by
  induction r with
  | nil => rfl
  | cons c rt ih =>
      have hc : c ∉ p := hdis c (List.mem_cons_self c rt)
      have hrt : ∀ b ∈ rt, b ∉ p := fun b hb => hdis b (List.mem_cons_of_mem c hb)
      have hpre : p.isPrefixOf (c :: (rt ++ x)) = false := by
        cases p with
        | nil => exact absurd rfl hp
        | cons pc pt =>
            by_contra hne
            have htrue : (pc :: pt).isPrefixOf (c :: (rt ++ x)) = true := by
              cases h : (pc :: pt).isPrefixOf (c :: (rt ++ x)) with
              | true => rfl
              | false => exact absurd h hne
            simp [List.isPrefixOf] at htrue
            exact hc (htrue.1 ▸ List.mem_cons_self pc pt)
      simp only [List.cons_append, containsSeq, List.append_eq, hpre, Bool.false_or]
      exact ih hrt

theorem replaceGo_pull {p r : List α} (hr : r ≠ [])
    (hdis : ∀ c ∈ r, c ∉ p) :
    ∀ fuel s q, s.length ≤ fuel → q ≠ [] → (∀ c ∈ q, c ∈ p) →
      q.isPrefixOf (replaceGo p r fuel s) = true → q.isPrefixOf s = true := by
  intro fuel
  induction fuel with
  | zero =>
      intro s q hle hq _ hpre
      cases s with
      | nil =>
          cases q with
          | nil => exact absurd rfl hq
          | cons qc qt => simp [replaceGo, List.isPrefixOf] at hpre
      | cons a t => simp at hle
  | succ fuel ih =>
      intro s q hle hq hqp hpre
      cases s with
      | nil =>
          cases q with
          | nil => exact absurd rfl hq
          | cons qc qt => simp [replaceGo, List.isPrefixOf] at hpre
      | cons a t =>
          by_cases hmatch : p.isPrefixOf (a :: t) = true
          · cases r with
            | nil => exact absurd rfl hr
            | cons rc rt =>
                cases q with
                | nil => exact absurd rfl hq
                | cons qc qt =>
                    rw [replaceGo, if_pos hmatch] at hpre
                    simp only [List.cons_append, List.isPrefixOf,
                      Bool.and_eq_true, beq_iff_eq] at hpre
                    have hqcp : qc ∈ p := hqp qc (List.mem_cons_self qc qt)
                    have hrcp : rc ∉ p := hdis rc (List.mem_cons_self rc rt)
                    exact absurd (hpre.1 ▸ hqcp) hrcp
          · have hmatch' : p.isPrefixOf (a :: t) = false := by
              cases h : p.isPrefixOf (a :: t) with
              | true => exact absurd h hmatch
              | false => rfl
            rw [replaceGo, if_neg (by simp [hmatch'])] at hpre
            cases q with
            | nil => exact absurd rfl hq
            | cons qc qt =>
                simp only [List.isPrefixOf, Bool.and_eq_true, beq_iff_eq] at hpre ⊢
                refine ⟨hpre.1, ?_⟩
                cases qt with
                | nil => simp [List.isPrefixOf]
                | cons q2 qts =>
                    have hle' : t.length ≤ fuel := by simpa using hle
                    exact ih t (q2 :: qts) hle' (by simp)
                      (fun c hc => hqp c (List.mem_cons_of_mem qc hc)) hpre.2

theorem containsSeq_replaceGo {p r : List α} (hp : p ≠ []) (hr : r ≠ [])
    (hdis : ∀ c ∈ r, c ∉ p) :
    ∀ fuel s, s.length ≤ fuel → containsSeq p (replaceGo p r fuel s) = false := by
  intro fuel
  induction fuel with
  | zero =>
      intro s hle
      cases s with
      | nil =>
          cases p with
          | nil => exact absurd rfl hp
          | cons pc pt => simp [replaceGo, containsSeq, List.isEmpty]
      | cons a t => simp at hle
  | succ fuel ih =>
      intro s hle
      cases s with
      | nil =>
          cases p with
          | nil => exact absurd rfl hp
          | cons pc pt => simp [replaceGo, containsSeq, List.isEmpty]
      | cons a t =>
          by_cases hmatch : p.isPrefixOf (a :: t) = true
          · rw [replaceGo, if_pos hmatch]
            rw [containsSeq_append_of_disjoint hp hdis]
            have hlen : (t.drop (p.length - 1)).length ≤ fuel := by
              have h1 : (t.drop (p.length - 1)).length ≤ t.length := by
                simp [List.length_drop]
              have h2 : t.length ≤ fuel := by simpa using hle
              omega
            exact ih _ hlen
          · have hmatch' : p.isPrefixOf (a :: t) = false := by
              cases h : p.isPrefixOf (a :: t) with
              | true => exact absurd h hmatch
              | false => rfl
            rw [replaceGo, if_neg (by simp [hmatch'])]
            have hle' : t.length ≤ fuel := by simpa using hle
            have htail : containsSeq p (replaceGo p r fuel t) = false := ih t hle'
            have hhead : p.isPrefixOf (a :: replaceGo p r fuel t) = false := by
              by_contra hne
              have htrue : p.isPrefixOf (a :: replaceGo p r fuel t) = true := by
                cases h : p.isPrefixOf (a :: replaceGo p r fuel t) with
                | true => rfl
                | false => exact absurd h hne
              cases p with
              | nil => exact absurd rfl hp
              | cons pc pt =>
                  simp only [List.isPrefixOf, Bool.and_eq_true, beq_iff_eq] at htrue
                  cases pt with
                  | nil =>
                      have : (pc :: ([] : List α)).isPrefixOf (a :: t) = true := by
                        simp [List.isPrefixOf, htrue.1]
                      rw [this] at hmatch'
                      exact Bool.true_eq_false.mp hmatch'
                  | cons p2 pts =>
                      have hsub : (p2 :: pts).isPrefixOf t = true :=
                        replaceGo_pull hr hdis fuel t (p2 :: pts) hle' (by simp)
                          (fun c hc => List.mem_cons_of_mem pc hc) htrue.2
                      have : (pc :: p2 :: pts).isPrefixOf (a :: t) = true := by
                        simp [List.isPrefixOf, htrue.1, hsub]
                      rw [this] at hmatch'
                      exact Bool.true_eq_false.mp hmatch'
            simp [containsSeq, hhead, htail]

theorem containsSeq_r_replaceGo {p r : List α} (hp : p ≠ []) :
    ∀ fuel s, s.length ≤ fuel → containsSeq p s = true →
      containsSeq r (replaceGo p r fuel s) = true := by
  intro fuel
  induction fuel with
  | zero =>
      intro s hle hocc
      cases s with
      | nil =>
          cases p with
          | nil => exact absurd rfl hp
          | cons pc pt => simp [containsSeq, List.isEmpty] at hocc
      | cons a t => simp at hle
  | succ fuel ih =>
      intro s hle hocc
      cases s with
      | nil =>
          cases p with
          | nil => exact absurd rfl hp
          | cons pc pt => simp [containsSeq, List.isEmpty] at hocc
      | cons a t =>
          by_cases hmatch : p.isPrefixOf (a :: t) = true
          · rw [replaceGo, if_pos hmatch]
            exact containsSeq_self_append r _
          · have hmatch' : p.isPrefixOf (a :: t) = false := by
              cases h : p.isPrefixOf (a :: t) with
              | true => exact absurd h hmatch
              | false => rfl
            rw [replaceGo, if_neg (by simp [hmatch'])]
            have hocct : containsSeq p t = true := by
              rw [containsSeq, hmatch', Bool.false_or] at hocc
              exact hocc
            have hle' : t.length ≤ fuel := by simpa using hle
            have := ih t hle' hocct
            simp [containsSeq, this]

theorem containsSeq_listReplace {p r s : List α} (hp : p ≠ []) (hr : r ≠ [])
    (hdis : ∀ c ∈ r, c ∉ p) : containsSeq p (listReplace p r s) = false := by
  rw [listReplace, if_neg (by simp [List.isEmpty_iff, hp])]
  exact containsSeq_replaceGo hp hr hdis s.length s (Nat.le_refl _)

theorem containsSeq_r_listReplace {p r s : List α} (hp : p ≠ [])
    (hocc : containsSeq p s = true) : containsSeq r (listReplace p r s) = true := by
  rw [listReplace, if_neg (by simp [List.isEmpty_iff, hp])]
  exact containsSeq_r_replaceGo hp s.length s (Nat.le_refl _) hocc

end ReplaceLib

/-! ## Byte-level helpers

File contents are byte lists.  `encodeUtf8` is UTF-8 encoding of a Lean
`String` (Python's `s.encode("utf-8")`), written out structurally so that
it evaluates inside the kernel. -/

/-- UTF-8 encoding of a single code point (RFC 3629). -/
def utf8Bytes (c : Char) : List Nat :=
  let n := c.toNat
  if n < 0x80 then [n]
  else if n < 0x800 then [0xC0 + n / 0x40, 0x80 + n % 0x40]
  else if n < 0x10000 then
    [0xE0 + n / 0x1000, 0x80 + (n / 0x40) % 0x40, 0x80 + n % 0x40]
  else
    [0xF0 + n / 0x40000, 0x80 + (n / 0x1000) % 0x40,
     0x80 + (n / 0x40) % 0x40, 0x80 + n % 0x40]

/-- Python's `s.encode("utf-8")` as a byte list. -/
def encodeUtf8 (s : String) : List Nat :=
  (s.data.map utf8Bytes).flatten

/-- ASCII lower-casing of one character.  Python's `str.lower()` is
Unicode-aware, but the scripts only lower-case a file extension before
comparing it against the ASCII allow-list `.html/.css/.js`, and no
non-ASCII code point lower-cases onto any of those ASCII letters, so the
comparison results coincide. -/
def asciiLower (c : Char) : Char :=
  if 'A' ≤ c ∧ c ≤ 'Z' then Char.ofNat (c.toNat + 32) else c

/-! ## `os.path.splitext` on a bare directory-entry name

CPython takes the extension to start at the last dot, unless every
character before that dot is itself a dot (so `.html` as a whole file
name has no extension).  Directory-entry names from `os.listdir` contain
no path separator, which is the only case the script needs. -/

/-- The suffix of `cs` starting at its last dot, when a dot occurs. -/
def dotSuffix : List Char → Option (List Char)
  | [] => none
  | c :: cs =>
      match dotSuffix cs with
      | some e => some e
      | none => if c = '.' then some (c :: cs) else none

/-- The extension part of `os.path.splitext(name)` (as characters). -/
def extSplit (cs : List Char) : List Char :=
  match dotSuffix cs with
  | none => []
  | some e =>
      if (cs.take (cs.length - e.length)).all (fun c => c = '.') then [] else e

/-- The script's `os.path.splitext(filename)[1].lower()`. -/
def extLower (name : String) : String :=
  String.mk ((extSplit name.data).map asciiLower)

/-! ## Version resolution (`scripts/pio_version.py` and
`get_firmware_version` in `scripts/gzip_webfiles.py`) -/

/-- An entry of the SCons `BUILD_FLAGS` list.  The script filters with
`isinstance(flag, str)`; a non-string entry is any other Python object. -/
inductive PyFlag : Type
  | str (s : String)
  | nonStr
deriving DecidableEq, Repr

/-- The build-flag key the script scans for. -/
def verKey : String := "-DFW_VERSION="

/-- Does one `BUILD_FLAGS` entry match
`isinstance(flag, str) and flag.startswith("-DFW_VERSION=")`? -/
def matchesVersionFlag : PyFlag → Bool
  | PyFlag.str s => verKey.data.isPrefixOf s.data
  | PyFlag.nonStr => false

/-- Python's `flag.split("=", 1)[1]`: everything after the first `=`.
Only reached under the `startswith` guard, so an `=` is present. -/
def afterFirstEq (s : String) : String :=
  String.mk ((s.data.dropWhile (fun c => c ≠ '=')).drop 1)

/-- `get_firmware_version` from `scripts/gzip_webfiles.py`: scan
`BUILD_FLAGS` for the first string entry starting with `-DFW_VERSION=`
and return its value; otherwise `os.environ.get("FW_VERSION", "dev")`.
`envFW` is the process environment's `FW_VERSION` entry. -/
def get_firmware_version : List PyFlag → Option String → String
  | [], envFW => envFW.getD ("dev")
  | PyFlag.str s :: rest, envFW =>
      if verKey.data.isPrefixOf s.data then afterFirstEq s
      else get_firmware_version rest envFW
  | PyFlag.nonStr :: rest, envFW => get_firmware_version rest envFW

/-- The module-level `fw = os.getenv("FW_VERSION", "v1.0.0")` of
`scripts/pio_version.py`: the token published via
`env.Append(CPPDEFINES=[("FW_VERSION", fw)])` and substituted into
`index.html`. -/
def fw (envFW : Option String) : String :=
  envFW.getD ("v1.0.0")

/-! ## The asset compressor (`gzip_webfiles` in
`scripts/gzip_webfiles.py`) -/

/-- A directory entry of `os.listdir(data_dir)`: its name, whether it is
a directory, and (for a file) its byte content on disk. -/
structure Entry : Type where
  name : String
  isDir : Bool
  content : List Nat
deriving DecidableEq, Repr

/-- The placeholder `b"__VERSION__"` replaced in HTML assets. -/
def placeholderStr : String := "__VERSION__"

/-- Placeholder bytes. -/
def placeholderBytes : List Nat := encodeUtf8 placeholderStr

/-- The allow-list `extensions = [".html", ".css", ".js"]`. -/
def webExts : List String := [".html", ".css", ".js"]

/-- The per-entry filter of the loop: skip directories, skip names
already ending in `.gz`, skip extensions (lower-cased) outside the
allow-list. -/
def shouldProcess (e : Entry) : Bool :=
  !e.isDir && !(".gz".data.isSuffixOf e.name.data) && webExts.contains (extLower e.name)

/-- The bytes handed to the compressor for one asset: for an HTML
extension, `content.replace(b"__VERSION__", version.encode("utf-8"))`;
otherwise the content unchanged. -/
def processedContent (version : String) (e : Entry) : List Nat :=
  if extLower e.name = ".html" then
    listReplace placeholderBytes (encodeUtf8 version) e.content
  else
    e.content

/-- What `gzip.open(gz_filepath, "wb", compresslevel=9)` writes: a gzip
member whose header records a modification time (CPython uses the current
wall-clock time when `mtime` is not given) and the original file name
(the `.gz` path's base name with the `.gz` suffix stripped, per RFC 1952
FNAME as CPython writes it), followed by the deflate stream of the data.
Two streams with different header fields serialize to different bytes, so
byte-level equality of `.gz` files is equality of this record. -/
structure GzipStream : Type where
  mtime : Nat
  fname : String
  payload : List Nat
deriving DecidableEq, Repr

/-- The only exception the loop body can raise on well-formed inputs:
`ratio = (1 - gz_size / orig_size) * 100` divides by
`os.path.getsize(filepath)`, which is zero for an empty source file. -/
inductive PyErr : Type
  | zeroDivision
deriving DecidableEq, Repr

/-- Outcome of one invocation: the `.gz` files written, in order, and
the exception that aborted the loop, if any. -/
structure RunResult : Type where
  writes : List (String × GzipStream)
  error : Option PyErr
deriving DecidableEq, Repr

/-- The time-independent part of one write: target path, embedded
original name, compressed payload — everything except the gzip header's
modification-time field. -/
def writeData (w : String × GzipStream) : String × String × List Nat :=
  (w.1, w.2.fname, w.2.payload)

/-- The `for filename in os.listdir(data_dir)` loop.  `compress` stands
for the deflate compressor at level 9 (a fixed deterministic function of
the input bytes); `now` is the wall-clock time gzip records in the
header.  Each processed file is read, HTML gets the placeholder
substitution, the `.gz` sibling is written, and then the size report
divides by the original size — raising `ZeroDivisionError` (and aborting
the loop) when the source file is empty, after its sibling was written. -/
def processFiles (compress : List Nat → List Nat) (version : String) (now : Nat) :
    List Entry → RunResult
  | [] => ⟨[], none⟩
  | e :: rest =>
      if shouldProcess e then
        let w : String × GzipStream :=
          (e.name ++ ".gz", ⟨now, e.name, compress (processedContent version e)⟩)
        if e.content.isEmpty then
          ⟨[w], some PyErr.zeroDivision⟩
        else
          let r := processFiles compress version now rest
          ⟨w :: r.writes, r.error⟩
      else
        processFiles compress version now rest

/-- `gzip_webfiles(source, target, env)`: resolve the version, then
return early when the data directory is missing, else run the loop over
its entries. -/
def gzip_webfiles (compress : List Nat → List Nat) (dirExists : Bool)
    (entries : List Entry) (flags : List PyFlag) (envFW : Option String)
    (now : Nat) : RunResult :=
  let version := get_firmware_version flags envFW
  if dirExists then processFiles compress version now entries
  else ⟨[], none⟩

/-! ## The in-place HTML substitution (`process_data_files` in
`scripts/pio_version.py`) -/

/-- `process_data_files(source, target, env)`: when `data/index.html`
exists and its text contains `__VERSION__`, write back the text with
every occurrence replaced by `fw`; otherwise touch nothing.  `some c`
is the content written, `none` means no write happened. -/
def process_data_files (indexExists : Bool) (content : String)
    (fwv : String) : Option String :=
  if indexExists then
    if containsSeq placeholderStr.data content.data then
      some (String.mk (listReplace placeholderStr.data fwv.data content.data))
    else none
  else none

/-! ## Helper lemmas about the pipeline -/

/-- When no `BUILD_FLAGS` entry is a string starting with
`-DFW_VERSION=`, the scan falls through to the environment lookup. -/
theorem gfv_of_no_flag (flags : List PyFlag) (envFW : Option String)
    (h : ∀ f ∈ flags, matchesVersionFlag f = false) :
    get_firmware_version flags envFW = envFW.getD ("dev") := by
  induction flags with
  | nil => rfl
  | cons f rest ih =>
      cases f with
      | str s =>
          have hs : verKey.data.isPrefixOf s.data = false :=
            h (PyFlag.str s) (List.mem_cons_self _ _)
          simp only [get_firmware_version, hs, Bool.false_eq_true, if_false]
          exact ih (fun g hg => h g (List.mem_cons_of_mem _ hg))
      | nonStr =>
          simp only [get_firmware_version]
          exact ih (fun g hg => h g (List.mem_cons_of_mem _ hg))

/-- Every write the loop performs is the `.gz` sibling of a processed
entry, stamped with the run's clock and carrying the compressed
(possibly substituted) content of that entry. -/
theorem processFiles_mem (compress : List Nat → List Nat) (v : String) (now : Nat) :
    ∀ (entries : List Entry) (name : String) (st : GzipStream),
      (name, st) ∈ (processFiles compress v now entries).writes →
      ∃ e ∈ entries, shouldProcess e = true ∧ name = e.name ++ ".gz" ∧
        st = ⟨now, e.name, compress (processedContent v e)⟩ := by
  intro entries
  induction entries with
  | nil => intro name st h; simp [processFiles] at h
  | cons e rest ih =>
      intro name st h
      cases hsp : shouldProcess e with
      | false =>
          rw [processFiles.eq_def] at h
          simp only [hsp, Bool.false_eq_true, if_false] at h
          obtain ⟨e', he', hrest⟩ := ih name st h
          exact ⟨e', List.mem_cons_of_mem _ he', hrest⟩
      | true =>
          rw [processFiles.eq_def] at h
          simp only [hsp, if_true] at h
          cases hc : e.content.isEmpty with
          | true =>
              simp only [hc, if_true, List.mem_singleton, Prod.mk.injEq] at h
              exact ⟨e, List.mem_cons_self _ _, hsp, h.1, h.2⟩
          | false =>
              simp only [hc, Bool.false_eq_true, if_false, List.mem_cons,
                Prod.mk.injEq] at h
              cases h with
              | inl h => exact ⟨e, List.mem_cons_self _ _, hsp, h.1, h.2⟩
              | inr h =>
                  obtain ⟨e', he', hrest⟩ := ih name st h
                  exact ⟨e', List.mem_cons_of_mem _ he', hrest⟩

/-- The clock only enters a run through the gzip header's mtime field:
writes agree after dropping it, and the error outcome agrees. -/
theorem processFiles_time (compress : List Nat → List Nat) (v : String)
    (t1 t2 : Nat) :
    ∀ entries : List Entry,
      (processFiles compress v t1 entries).writes.map writeData
        = (processFiles compress v t2 entries).writes.map writeData ∧
      (processFiles compress v t1 entries).error
        = (processFiles compress v t2 entries).error := by
  intro entries
  induction entries with
  | nil => exact ⟨rfl, rfl⟩
  | cons e rest ih =>
      cases hsp : shouldProcess e with
      | false => simpa [processFiles, hsp] using ih
      | true =>
          cases hc : e.content.isEmpty with
          | true => simp [processFiles, hsp, hc, writeData]
          | false =>
              have h1 := ih.1
              have h2 := ih.2
              simp [processFiles, hsp, hc, writeData, h1, h2]

/-! ## Claims -/

/-- C1 (counterexample): the claim says the compiled-code symbol from
`pio_version.py` and the token `get_firmware_version` injects into the
HTML always coincide.  With `FW_VERSION` unset and no `-DFW_VERSION`
build flag, `pio_version.py` publishes its fallback `v1.0.0` while
`get_firmware_version` resolves its fallback `dev`. -/
theorem c1_counterexample : get_firmware_version [] none ≠ fw none := by decide

/-- C1 (amended): the two resolvers agree — both returning the
environment value — whenever the `FW_VERSION` environment variable is
set and no string build flag starting with `-DFW_VERSION=` is present;
their fallbacks differ (`v1.0.0` vs `dev`) and a matching build flag
overrides only `get_firmware_version`. -/
theorem c1_agreement :
    ∀ (flags : List PyFlag) (envFW : Option String) (v : String),
      envFW = some v → (∀ f ∈ flags, matchesVersionFlag f = false) →
      get_firmware_version flags envFW = fw envFW := by
  intro flags envFW v he h
  subst he
  rw [gfv_of_no_flag flags (some v) h]
  rfl

/-- C1 amended-claim witness at a concrete environment. -/
theorem c1_agreement_witness :
    get_firmware_version [PyFlag.nonStr, PyFlag.str ("-O2")] (some ("v9.9.9"))
      = fw (some ("v9.9.9")) :=
  c1_agreement [PyFlag.nonStr, PyFlag.str ("-O2")] (some ("v9.9.9")) ("v9.9.9")
    rfl (by decide)

/-- C2 (counterexample): the claim says a set `FW_VERSION` environment
variable takes precedence over any `-DFW_VERSION=` build flag.  In the
code the build-flag scan runs first: with `FW_VERSION=v9.9.9` in the
environment and `-DFW_VERSION=v2.0.0` among the flags,
`get_firmware_version` returns `v2.0.0`, not the environment value. -/
theorem c2_counterexample :
    get_firmware_version [PyFlag.str ("-DFW_VERSION=v2.0.0")] (some ("v9.9.9"))
      ≠ "v9.9.9" := by decide

/-- C2 (amended): the actual precedence of `get_firmware_version` is
build flag over environment variable over fallback: the first string
flag starting with `-DFW_VERSION=` wins regardless of the environment;
with no matching flag a set `FW_VERSION` is returned; with neither, the
fallback is `dev`. -/
theorem c2_precedence :
    (∀ (pre post : List PyFlag) (s : String) (envFW : Option String),
        (∀ f ∈ pre, matchesVersionFlag f = false) →
        matchesVersionFlag (PyFlag.str s) = true →
        get_firmware_version (pre ++ PyFlag.str s :: post) envFW = afterFirstEq s) ∧
    (∀ (flags : List PyFlag) (v : String),
        (∀ f ∈ flags, matchesVersionFlag f = false) →
        get_firmware_version flags (some v) = v) ∧
    (∀ flags : List PyFlag,
        (∀ f ∈ flags, matchesVersionFlag f = false) →
        get_firmware_version flags none = "dev") := by
  refine ⟨?_, ?_, ?_⟩
  · intro pre post s envFW hpre hs
    induction pre with
    | nil =>
        have hs' : verKey.data.isPrefixOf s.data = true := hs
        simp only [List.nil_append, get_firmware_version, hs', if_true]
    | cons f pres ih =>
        cases f with
        | str t =>
            have ht : verKey.data.isPrefixOf t.data = false :=
              hpre (PyFlag.str t) (List.mem_cons_self _ _)
            simp only [List.cons_append, get_firmware_version, ht,
              Bool.false_eq_true, if_false]
            exact ih (fun g hg => hpre g (List.mem_cons_of_mem _ hg))
        | nonStr =>
            simp only [List.cons_append, get_firmware_version]
            exact ih (fun g hg => hpre g (List.mem_cons_of_mem _ hg))
  · intro flags v h
    rw [gfv_of_no_flag flags (some v) h]
    rfl
  · intro flags h
    exact gfv_of_no_flag flags none h

/-- C2 amended-claim witness: a matching flag after a non-matching one
wins over a set environment variable; without a flag the environment
value is returned. -/
theorem c2_precedence_witness :
    get_firmware_version
        [PyFlag.nonStr, PyFlag.str ("-DFW_VERSION=v2.0.0"), PyFlag.str ("-O2")]
        (some ("v9.9.9")) = "v2.0.0" ∧
      get_firmware_version [PyFlag.str ("-O2")] (some ("v9.9.9")) = "v9.9.9" := by
  constructor
  · have h := c2_precedence.1 [PyFlag.nonStr] [PyFlag.str ("-O2")]
      ("-DFW_VERSION=v2.0.0") (some ("v9.9.9")) (by decide) (by decide)
    have ha : afterFirstEq ("-DFW_VERSION=v2.0.0") = "v2.0.0" := by decide
    simpa [ha] using h
  · exact c2_precedence.2.1 [PyFlag.str ("-O2")] ("v9.9.9") (by decide)

/-- C3 (confirmed): version resolution is total; with the environment
variable absent and no matching build flag, `get_firmware_version`
returns exactly `dev`, and `pio_version.py`'s `fw` returns exactly
`v1.0.0`.  Both resolvers are total Lean functions, so no error path
exists. -/
theorem c3_fallback :
    ∀ (flags : List PyFlag) (envFW : Option String),
      (∀ f ∈ flags, matchesVersionFlag f = false) → envFW = none →
      get_firmware_version flags envFW = "dev" ∧ fw none = "v1.0.0" := by
  intro flags envFW h he
  subst he
  exact ⟨gfv_of_no_flag flags none h, rfl⟩

/-- C3 witness at a concrete flag list with no matching entry. -/
theorem c3_fallback_witness :
    get_firmware_version [PyFlag.str ("-O2"), PyFlag.nonStr] none = "dev" ∧
      fw none = "v1.0.0" :=
  c3_fallback [PyFlag.str ("-O2"), PyFlag.nonStr] none (by decide) rfl

/-- C7 (confirmed): the compressor processes a directory entry exactly
when it is not a directory, its name does not already end in `.gz`, and
its extension (per `os.path.splitext`, lower-cased) is in the allow-list
`.html`, `.css`, `.js`; and a run over entries none of which pass the
filter — such as a lone `.txt` file — writes nothing and raises
nothing. -/
theorem c7_filter :
    (∀ e : Entry, shouldProcess e = true ↔
        (e.isDir = false ∧ (".gz".data.isSuffixOf e.name.data) = false ∧
          extLower e.name ∈ webExts)) ∧
    (∀ (compress : List Nat → List Nat) (v : String) (now : Nat)
        (entries : List Entry),
        (∀ e ∈ entries, shouldProcess e = false) →
        processFiles compress v now entries = ⟨[], none⟩) := by
  constructor
  · intro e
    simp only [shouldProcess, Bool.and_eq_true, Bool.not_eq_true',
      List.contains, List.elem_iff, and_assoc]
  · intro compress v now entries
    induction entries with
    | nil => intro _; rfl
    | cons e rest ih =>
        intro h
        have he : shouldProcess e = false := h e (List.mem_cons_self _ _)
        rw [processFiles.eq_def]
        simp only [he, Bool.false_eq_true, if_false]
        exact ih (fun e' h' => h e' (List.mem_cons_of_mem _ h'))

/-- C7 witness: a directory holding only `notes.txt` yields no `.gz`
sibling and no error. -/
theorem c7_filter_witness :
    processFiles (fun x => x) ("dev") 0 [⟨"notes.txt", false, [55]⟩]
      = ⟨[], none⟩ :=
  c7_filter.2 (fun x => x) ("dev") 0 [⟨"notes.txt", false, [55]⟩] (by decide)

/-- C8 (confirmed): when the `data` directory does not exist the hook
returns normally — the run performs no writes and raises nothing, for
every compressor, entry list, flag list, environment and clock. -/
theorem c8_missing_dir :
    ∀ (compress : List Nat → List Nat) (entries : List Entry)
      (flags : List PyFlag) (envFW : Option String) (now : Nat),
      gzip_webfiles compress false entries flags envFW now = ⟨[], none⟩ := by
  intro compress entries flags envFW now
  rfl

/-- C9 (confirmed): `process_data_files` writes `index.html` back if and
only if the file exists and its content contains the literal
`__VERSION__`; a missing placeholder (or a missing file) leaves the file
untouched, and the operation is total. -/
theorem c9_placeholder :
    ∀ (indexExists : Bool) (content fwv : String),
      process_data_files indexExists content fwv ≠ none ↔
        (indexExists = true ∧
          containsSeq placeholderStr.data content.data = true) := by
  intro indexExists content fwv
  cases indexExists with
  | false => simp [process_data_files]
  | true =>
      cases h : containsSeq placeholderStr.data content.data with
      | true => simp [process_data_files, h]
      | false => simp [process_data_files, h]

/-- C9 witness: with the placeholder present the file is rewritten; with
it absent nothing is written. -/
theorem c9_placeholder_witness :
    process_data_files true ("<nav>__VERSION__</nav>") ("v2") ≠ none ∧
      ¬ process_data_files true ("<p>hello</p>") ("v2") ≠ none :=
  ⟨(c9_placeholder true ("<nav>__VERSION__</nav>") ("v2")).mpr ⟨rfl, by decide⟩,
   fun h => by
    have := (c9_placeholder true ("<p>hello</p>") ("v2")).mp h
    exact absurd this.2 (by decide)⟩

/-- C10 (confirmed): the size report divides by the original file's
size, so the loop raises `ZeroDivisionError` exactly when some processed
entry has empty content — and the aborting entry's `.gz` sibling is
already written when it raises. -/
theorem c10_zero_division :
    (∀ (compress : List Nat → List Nat) (v : String) (now : Nat)
        (entries : List Entry),
        (processFiles compress v now entries).error =
          if entries.any (fun e => shouldProcess e && e.content.isEmpty)
          then some PyErr.zeroDivision else none) ∧
    (∀ (compress : List Nat → List Nat) (v : String) (now : Nat)
        (entries : List Entry),
        entries.any (fun e => shouldProcess e && e.content.isEmpty) = true →
        ∃ e st, shouldProcess e = true ∧ e.content = [] ∧
          (e.name ++ ".gz", st) ∈ (processFiles compress v now entries).writes) := by
  constructor
  · intro compress v now entries
    induction entries with
    | nil => rfl
    | cons e rest ih =>
        cases hsp : shouldProcess e with
        | false => simpa [processFiles, hsp, List.any_cons] using ih
        | true =>
            cases hc : e.content.isEmpty with
            | true => simp [processFiles, hsp, hc, List.any_cons]
            | false => simpa [processFiles, hsp, hc, List.any_cons] using ih
  · intro compress v now entries
    induction entries with
    | nil => intro h; simp at h
    | cons e rest ih =>
        intro h
        cases hsp : shouldProcess e with
        | false =>
            rw [List.any_cons, hsp, Bool.false_and, Bool.false_or] at h
            obtain ⟨e', st, h1, h2, h3⟩ := ih h
            refine ⟨e', st, h1, h2, ?_⟩
            rw [processFiles.eq_def]
            simpa [hsp] using h3
        | true =>
            cases hc : e.content.isEmpty with
            | true =>
                refine ⟨e, ⟨now, e.name, compress (processedContent v e)⟩,
                  hsp, List.isEmpty_iff.mp hc, ?_⟩
                rw [processFiles.eq_def]
                simp [hsp, hc]
            | false =>
                rw [List.any_cons, hsp, hc, Bool.true_and, Bool.false_or] at h
                obtain ⟨e', st, h1, h2, h3⟩ := ih h
                refine ⟨e', st, h1, h2, ?_⟩
                rw [processFiles.eq_def]
                simp only [hsp, if_true, hc, Bool.false_eq_true, if_false]
                exact List.mem_cons_of_mem _ h3

/-- C10 witness: a lone empty `a.html` aborts the run with
`ZeroDivisionError` after its `.gz` sibling was written. -/
theorem c10_zero_division_witness :
    (processFiles (fun x => x) ("dev") 3 [⟨"a.html", false, []⟩]).error
        = some PyErr.zeroDivision ∧
      ∃ e st, shouldProcess e = true ∧ e.content = [] ∧
        (e.name ++ ".gz", st)
          ∈ (processFiles (fun x => x) ("dev") 3 [⟨"a.html", false, []⟩]).writes :=
  ⟨(c10_zero_division.1 (fun x => x) ("dev") 3 [⟨"a.html", false, []⟩]).trans
      (by decide),
   c10_zero_division.2 (fun x => x) ("dev") 3 [⟨"a.html", false, []⟩] (by decide)⟩

/-- C4 (counterexample): the claim says that after processing an HTML
asset no occurrence of `__VERSION__` remains.  The resolved version is
an arbitrary externally supplied string; when it is itself
`__VERSION__` (for instance `FW_VERSION=__VERSION__` in the
environment), the bytes handed to the compressor still contain the
placeholder. -/
theorem c4_counterexample :
    containsSeq placeholderBytes
      (processedContent placeholderStr ⟨"index.html", false, placeholderBytes⟩)
      = true := by decide

/-- C4 (amended): for an HTML asset whose content contains the
placeholder, and a version string that is non-empty and shares no byte
with `__VERSION__` (true of every release tag such as `v9.9.9`), the
substituted content contains the encoded version and no occurrence of
the placeholder; an asset with a non-HTML extension is passed to the
compressor byte-for-byte unmodified. -/
theorem c4_substitution :
    (∀ (e : Entry) (v : String),
        extLower e.name = ".html" →
        encodeUtf8 v ≠ [] →
        (∀ b ∈ encodeUtf8 v, b ∉ placeholderBytes) →
        containsSeq placeholderBytes e.content = true →
        containsSeq placeholderBytes (processedContent v e) = false ∧
          containsSeq (encodeUtf8 v) (processedContent v e) = true) ∧
    (∀ (e : Entry) (v : String),
        extLower e.name ≠ ".html" → processedContent v e = e.content) := by
  constructor
  · intro e v hext hv hdis hocc
    have hp : placeholderBytes ≠ [] := by decide
    simp only [processedContent, hext, if_true]
    exact ⟨containsSeq_listReplace hp hv hdis,
      containsSeq_r_listReplace hp hocc⟩
  · intro e v hext
    simp only [processedContent, hext, if_false]

/-- C4 amended-claim witness: `index.html` containing the placeholder,
version `v9.9.9`. -/
theorem c4_substitution_witness :
    containsSeq placeholderBytes
        (processedContent ("v9.9.9")
          ⟨"index.html", false, encodeUtf8 ("<h1>__VERSION__</h1>")⟩) = false ∧
      containsSeq (encodeUtf8 ("v9.9.9"))
        (processedContent ("v9.9.9")
          ⟨"index.html", false, encodeUtf8 ("<h1>__VERSION__</h1>")⟩) = true :=
  c4_substitution.1 ⟨"index.html", false, encodeUtf8 ("<h1>__VERSION__</h1>")⟩
    ("v9.9.9") (by decide) (by decide) (by decide) (by decide)

/-- C5 (confirmed): for any compressor/decompressor pair satisfying the
gzip contract (decompression is a left inverse of compression — the
guarantee of the `gzip` standard-library module), every `.gz` sibling a
run writes decompresses to exactly the (possibly version-substituted)
content of the source entry it came from. -/
theorem c5_roundtrip :
    ∀ (compress decompress : List Nat → List Nat),
      (∀ x, decompress (compress x) = x) →
      ∀ (dirExists : Bool) (entries : List Entry) (flags : List PyFlag)
        (envFW : Option String) (now : Nat) (name : String) (st : GzipStream),
        (name, st) ∈ (gzip_webfiles compress dirExists entries flags envFW now).writes →
        ∃ e ∈ entries, shouldProcess e = true ∧ name = e.name ++ ".gz" ∧
          decompress st.payload
            = processedContent (get_firmware_version flags envFW) e := by
  intro compress decompress hinv dirExists entries flags envFW now name st h
  cases dirExists with
  | false => simp [gzip_webfiles] at h
  | true =>
      have h' : (name, st)
          ∈ (processFiles compress (get_firmware_version flags envFW) now
              entries).writes := h
      obtain ⟨e, he, hsp, hname, hst⟩ :=
        processFiles_mem compress (get_firmware_version flags envFW) now
          entries name st h'
      refine ⟨e, he, hsp, hname, ?_⟩
      rw [hst]
      exact hinv _

/-- C5 witness: the identity codec satisfies the round-trip contract;
the single written sibling of `app.js` decompresses to its unmodified
content. -/
theorem c5_roundtrip_witness :
    ∃ e ∈ [Entry.mk ("app.js") false [1, 2, 3]], shouldProcess e = true ∧
      ("app.js.gz" : String) = e.name ++ ".gz" ∧
      (fun x : List Nat => x) (GzipStream.mk 7 ("app.js") [1, 2, 3]).payload
        = processedContent (get_firmware_version [] none) e :=
  c5_roundtrip (fun x => x) (fun x => x) (fun _ => rfl) true
    [Entry.mk ("app.js") false [1, 2, 3]] [] none 7 ("app.js.gz")
    (GzipStream.mk 7 ("app.js") [1, 2, 3]) (by decide)

/-- C6 (counterexample): the claim says two runs on unchanged sources
with the same version produce byte-identical `.gz` content.  CPython's
`gzip.open(path, "wb")` stamps the current wall-clock time into the
member header's MTIME field (RFC 1952), so runs at clock times 0 and 1
write different bytes even for identical input — here with the payload
compressor held fixed (the header difference is independent of it). -/
theorem c6_counterexample :
    (gzip_webfiles (fun x => x) true [⟨"style.css", false, [104]⟩] [] none 0).writes
      ≠ (gzip_webfiles (fun x => x) true [⟨"style.css", false, [104]⟩] [] none 1).writes := by
  decide

/-- C6 (amended): two runs on unchanged sources with the same version
are identical up to the gzip header's recorded modification time: the
target paths, embedded file names and compressed payloads coincide, the
error outcome coincides, and runs whose recorded clock coincides are
byte-identical. -/
theorem c6_determinism :
    ∀ (compress : List Nat → List Nat) (dirExists : Bool)
      (entries : List Entry) (flags : List PyFlag) (envFW : Option String)
      (t1 t2 : Nat),
      (gzip_webfiles compress dirExists entries flags envFW t1).writes.map writeData
        = (gzip_webfiles compress dirExists entries flags envFW t2).writes.map writeData ∧
      (gzip_webfiles compress dirExists entries flags envFW t1).error
        = (gzip_webfiles compress dirExists entries flags envFW t2).error ∧
      (t1 = t2 →
        gzip_webfiles compress dirExists entries flags envFW t1
          = gzip_webfiles compress dirExists entries flags envFW t2) := by
  intro compress dirExists entries flags envFW t1 t2
  refine ⟨?_, ?_, ?_⟩
  · cases dirExists with
    | false => rfl
    | true =>
        exact (processFiles_time compress (get_firmware_version flags envFW)
          t1 t2 entries).1
  · cases dirExists with
    | false => rfl
    | true =>
        exact (processFiles_time compress (get_firmware_version flags envFW)
          t1 t2 entries).2
  · intro h
    rw [h]

/-- C6 amended-claim witness: runs at clock times 0 and 1 agree after
dropping the header time; runs at the same clock time are identical. -/
theorem c6_determinism_witness :
    (gzip_webfiles (fun x => x) true [⟨"style.css", false, [104]⟩] [] none 0).writes.map writeData
        = (gzip_webfiles (fun x => x) true [⟨"style.css", false, [104]⟩] [] none 1).writes.map writeData ∧
      gzip_webfiles (fun x => x) true [⟨"style.css", false, [104]⟩] [] none 4
        = gzip_webfiles (fun x => x) true [⟨"style.css", false, [104]⟩] [] none 4 :=
  ⟨(c6_determinism (fun x => x) true [⟨"style.css", false, [104]⟩] [] none 0 1).1,
   (c6_determinism (fun x => x) true [⟨"style.css", false, [104]⟩] [] none 4 4).2.2 rfl⟩
